import Mathlib

/-!
Verification of the island genetic algorithm knapsack solver
(`island_genetic_algorithm.py`, `gen_data.py`).

The genome codec, the fitness function and the island driver loop are
embedded as executable Lean definitions.  Machine behaviour that the
source delegates to numpy is embedded by its documented semantics
(`np.binary_repr`, `np.dot`, `np.unique`, `np.hstack`); the float value
`np.NINF` used as the infeasibility sentinel is embedded as the bottom
element of `WithBot Int`, which is strictly below every finite fitness,
exactly as IEEE negative infinity is below every finite float.

Python operators that live in `standard_genetic_algorithm.py` (a file of
this repository that is not part of the sources given here) are modelled
from the specification and carry a doc comment saying so.
-/

namespace IslandGA

/-- Fitness values: an integer profit or the `np.NINF` sentinel (`⊥`). -/
abbrev Fitness := WithBot ℤ

/-- Fuel-bounded core of `np.binary_repr(n)` for non-negative `n`:
most-significant-bit-first binary digits of `n`, `[]` for `0`.
Any `fuel ≥ n` gives the exact digit string. -/
def natBitsCore (fuel : ℕ) (n : ℕ) : List ℕ :=
  match fuel with
  | 0 => []
  | fuel + 1 => if n = 0 then [] else natBitsCore fuel (n / 2) ++ [n % 2]

/-- `np.binary_repr(n)` (no width): MSB-first digits, `[0]` for `0`. -/
def natBits (n : ℕ) : List ℕ :=
  if n = 0 then [0] else natBitsCore n n

/-- Embedding of `get_genome_sequence(code, padding)`
(src/island_genetic_algorithm.py lines 29-51):
`np.binary_repr(code, padding)` left-pads the natural binary
representation with zeros up to `padding`; when `padding` is smaller
than the representation it returns the representation unchanged
(no truncation — see the doctest examples in the source). -/
def get_genome_sequence (code : ℕ) (padding : ℕ) : List ℕ :=
  List.replicate (padding - (natBits code).length) 0 ++ natBits code

/-- Embedding of `get_genome_value(genome)`
(src/island_genetic_algorithm.py lines 54-75):
`int('0b' + digits, 2)`, i.e. the MSB-first base-2 value of the digit
list. -/
def get_genome_value (genome : List ℕ) : ℕ :=
  genome.foldl (fun a b => 2 * a + b) 0

/-- Embedding of the `Knapsack` record (src/gen_data.py): item count,
weight vector, value vector, capacity. -/
structure Knapsack where
  n : ℕ
  weights : List ℤ
  values : List ℤ
  capacity : ℤ

/-- `np.dot` of a 0/1 genome vector with an integer vector.  All uses in
the claims have equal lengths (numpy raises on mismatch; the theorems
carry the length hypotheses of the data model). -/
def npDot (a : List ℕ) (b : List ℤ) : ℤ :=
  (List.zipWith (fun (x : ℕ) (y : ℤ) => (x : ℤ) * y) a b).sum

/-- Embedding of `fitness_func(code, knapsack_obj)`
(src/island_genetic_algorithm.py lines 78-97): decode the genome to
`n` bits, return the value dot product if the weight dot product fits
in the capacity, else the `np.NINF` sentinel (`⊥`). -/
def fitness_func (code : ℕ) (ko : Knapsack) : Fitness :=
  if npDot (get_genome_sequence code ko.n) ko.weights ≤ ko.capacity
  then ((npDot (get_genome_sequence code ko.n) ko.values : ℤ) : Fitness)
  else ⊥

/-! ### Basic facts about the codec -/

theorem gv_foldl_acc (l : List ℕ) (a : ℕ) :
    l.foldl (fun x b => 2 * x + b) a =
      a * 2 ^ l.length + l.foldl (fun x b => 2 * x + b) 0 := by
  induction l generalizing a with
  | nil => simp
  | cons b l ih =>
    simp only [List.foldl_cons, List.length_cons]
    rw [ih (2 * a + b), ih (2 * 0 + b)]
    ring

theorem gv_append (l : List ℕ) (d : ℕ) :
    get_genome_value (l ++ [d]) = 2 * get_genome_value l + d := by
  unfold get_genome_value
  rw [List.foldl_append]
  simp

theorem gv_natBitsCore (fuel n : ℕ) (h : n ≤ fuel) :
    get_genome_value (natBitsCore fuel n) = n := by
  induction fuel generalizing n with
  | zero =>
    have : n = 0 := Nat.le_zero.mp h
    subst this
    rfl
  | succ fuel ih =>
    by_cases hn : n = 0
    · subst hn; simp [natBitsCore, get_genome_value]
    · rw [natBitsCore, if_neg hn, gv_append, ih (n / 2) (by omega)]
      omega

theorem gv_natBits (n : ℕ) : get_genome_value (natBits n) = n := by
  by_cases hn : n = 0
  · subst hn; rfl
  · rw [natBits, if_neg hn]
    exact gv_natBitsCore n n le_rfl

theorem gv_replicate_zero (k : ℕ) :
    (List.replicate k 0).foldl (fun x b => 2 * x + b) 0 = 0 := by
  induction k with
  | zero => rfl
  | succ k ih => simpa [List.replicate_succ] using ih

theorem gv_replicate_leading (k : ℕ) (l : List ℕ) :
    get_genome_value (List.replicate k 0 ++ l) = get_genome_value l := by
  unfold get_genome_value
  rw [List.foldl_append, gv_replicate_zero]

/-- The codec round-trips on every input, with any padding. -/
theorem roundtrip (code padding : ℕ) :
    get_genome_value (get_genome_sequence code padding) = code := by
  unfold get_genome_sequence
  rw [gv_replicate_leading, gv_natBits]

theorem natBitsCore_length (fuel : ℕ) :
    ∀ n p, n ≤ fuel → n < 2 ^ p → (natBitsCore fuel n).length ≤ p := by
  induction fuel with
  | zero =>
    intro n p h _
    have : n = 0 := Nat.le_zero.mp h
    subst this
    simp [natBitsCore]
  | succ fuel ih =>
    intro n p h hp
    by_cases hn : n = 0
    · subst hn; simp [natBitsCore]
    · rw [natBitsCore, if_neg hn]
      have hp1 : 1 ≤ p := by
        by_contra hc
        have : p = 0 := by omega
        subst this
        simp at hp
        omega
      have hdiv : n / 2 < 2 ^ (p - 1) := by
        rw [Nat.div_lt_iff_lt_mul (by norm_num : 0 < 2)]
        have : 2 ^ (p - 1) * 2 = 2 ^ p := by
          rw [← pow_succ]
          congr 1
          omega
        omega
      have hfuel : n / 2 ≤ fuel := by
        have : n / 2 < n := Nat.div_lt_self (Nat.pos_of_ne_zero hn) one_lt_two
        omega
      have := ih (n / 2) (p - 1) hfuel hdiv
      simp only [List.length_append, List.length_cons, List.length_nil]
      omega

theorem natBits_length_le (n p : ℕ) (hp : 1 ≤ p) (h : n < 2 ^ p) :
    (natBits n).length ≤ p := by
  by_cases hn : n = 0
  · subst hn; simpa [natBits] using hp
  · rw [natBits, if_neg hn]
    exact natBitsCore_length n n p le_rfl h

theorem get_genome_sequence_length (code p : ℕ) (hp : 1 ≤ p) (h : code < 2 ^ p) :
    (get_genome_sequence code p).length = p := by
  unfold get_genome_sequence
  have hle := natBits_length_le code p hp h
  simp only [List.length_append, List.length_replicate]
  omega

theorem get_genome_sequence_zero (p : ℕ) (hp : 1 ≤ p) :
    get_genome_sequence 0 p = List.replicate p 0 := by
  unfold get_genome_sequence
  have h1 : natBits 0 = [0] := rfl
  rw [h1]
  have : (0 : ℕ) :: ([] : List ℕ) = List.replicate 1 0 := rfl
  simp only [List.length_cons, List.length_nil]
  rw [show [(0 : ℕ)] = List.replicate 1 0 from rfl, ← List.replicate_add]
  congr 1
  omega

theorem npDot_replicate_zero (k : ℕ) (l : List ℤ) :
    npDot (List.replicate k 0) l = 0 := by
  induction k generalizing l with
  | zero => simp [npDot]
  | succ k ih =>
    cases l with
    | nil => simp [npDot]
    | cons y ys =>
      have h := ih ys
      rw [List.replicate_succ]
      simp only [npDot, List.zipWith_cons_cons, List.sum_cons]
      simp only [npDot] at h
      rw [h]
      simp

/-! ### The island driver

`IslandGeneticAlgorithm.driver` (src/island_genetic_algorithm.py lines
140-183) is embedded with its stochastic collaborators made explicit:
the random initial population of each cycle is an input `initPop`, and
the random draws consumed by the crossover/mutation islands are an
input oracle `orc` (cycle-independent streams indexed by loop iteration
and island number).  The `while` loop is embedded with fuel; `none`
means the loop did not finish within the fuel, and Python exceptions
are `Except.error` values. -/

/-- Python exceptions the driver can raise: `population[0]` on an empty
array (IndexError) and `max([])` (ValueError). -/
inductive PyErr where
  | indexError : PyErr
  | valueError : PyErr
deriving DecidableEq

/-- Python `max(xs, key=f)`: first element of maximal key, `none` on an
empty list (where CPython raises ValueError). -/
def pyMaxKey (f : ℕ → Fitness) : List ℕ → Option ℕ
  | [] => none
  | x :: xs => some (xs.foldl (fun best y => if f best < f y then y else best) x)

/-- Insertion step of a stable sort by descending fitness. -/
def insertDesc (f : ℕ → Fitness) (x : ℕ) : List ℕ → List ℕ
  | [] => [x]
  | y :: ys => if f y < f x then x :: y :: ys else y :: insertDesc f x ys

/-- Stable sort by descending fitness. -/
def sortDescBy (f : ℕ → Fitness) (l : List ℕ) : List ℕ :=
  l.foldr (insertDesc f) []

/-- Modelled from the spec: `selection` lives in
`standard_genetic_algorithm.py`, which is not among the given sources.
Spec §4.3: rank genomes descending by fitness and retain the top
`ceil(percentage * population_size)` genomes, at least 1. -/
def selection (f : ℕ → Fitness) (pop : List ℕ) (p : ℚ) : List ℕ :=
  (sortDescBy f pop).take (max 1 ⌈p * (pop.length : ℚ)⌉₊)

/-- The all-ones mask of a fixed genome width. -/
def widthMask (w : ℕ) : ℕ := 2 ^ w - 1

/-- One island's randomness for one generation: the parent pairs with
their per-bit choice masks, and the per-offspring mutation masks. -/
structure IslandRnd where
  pairs : List (ℕ × ℕ × ℕ)
  masks : List ℕ

/-- Modelled from the spec: `crossover` lives in
`standard_genetic_algorithm.py`, which is not among the given sources.
Spec §4.3 uniform crossover: each offspring combines two parents chosen
(with replacement) from the survivor population, taking each bit from
the first parent where the random mask has a 1 and from the second
parent elsewhere. -/
def crossover (w : ℕ) (pop : List ℕ) (pairs : List (ℕ × ℕ × ℕ)) : List ℕ :=
  pairs.map (fun pr =>
    ((pop.getD pr.1 0) &&& pr.2.2) ||| ((pop.getD pr.2.1 0) &&& (pr.2.2 ^^^ widthMask w)))

/-- Helper for bit-flip mutation: genome `i` is XORed with mutation
mask `i`, restricted to the genome width. -/
def mutateFrom (w : ℕ) (masks : List ℕ) (i : ℕ) : List ℕ → List ℕ
  | [] => []
  | g :: gs => (g ^^^ (masks.getD i 0 &&& widthMask w)) :: mutateFrom w masks (i + 1) gs

/-- Modelled from the spec: `mutation` lives in
`standard_genetic_algorithm.py`, which is not among the given sources.
Spec §4.3 bit-flip mutation: each bit of each offspring's fixed-width
representation is flipped according to an independent random draw; the
draws are the given masks, so the result never leaves `[0, 2^w - 1]`
when the input is in range. -/
def mutation (w : ℕ) (masks : List ℕ) (pop : List ℕ) : List ℕ :=
  mutateFrom w masks 0 pop

/-- Embedding of `IslandGeneticAlgorithm.crossover_mutation`
(src/island_genetic_algorithm.py lines 121-138): crossover, then
mutation. -/
def crossover_mutation (w : ℕ) (r : IslandRnd) (pop : List ℕ) : List ℕ :=
  mutation w r.masks (crossover w pop r.pairs)

/-- Sorted duplicate-free insertion, the building block of `np.unique`. -/
def insertUnique (x : ℕ) : List ℕ → List ℕ
  | [] => [x]
  | y :: ys =>
    if x < y then x :: y :: ys
    else if x = y then y :: ys
    else y :: insertUnique x ys

/-- `np.unique`: the ascending list of the distinct values of the input. -/
def npUnique (l : List ℕ) : List ℕ := l.foldr insertUnique []

/-- The merge step of one generation (src lines 166-177): `np.hstack`
of the `k_parallel` island outputs (each island runs
`crossover_mutation` on the same survivor population with its own
randomness), then `np.unique`.  The completion order of the islands
does not affect the result because `np.unique` sorts. -/
def mergeIslands (w : ℕ) (kp : ℕ) (rnd : ℕ → IslandRnd) (pop : List ℕ) : List ℕ :=
  npUnique (((List.range kp).map (fun j => crossover_mutation w (rnd j) pop)).flatten)

/-- Search configuration fields the driver reads (the Python object
also stores the population size, scheme selectors, seed range and
codec, which the embedded collaborators close over). -/
structure GAConfig where
  cycle : ℕ
  genome_size : ℕ
  fitness : ℕ → Fitness

/-- The non-guard body of one `EVOLVING` iteration: selection then the
parallel islands then the deduplicating merge (src lines 164-177). -/
def stepPop (cfg : GAConfig) (sp : ℚ) (kp : ℕ) (orc : ℕ → ℕ → IslandRnd)
    (iter : ℕ) (pop : List ℕ) : List ℕ :=
  mergeIslands cfg.genome_size kp (orc iter) (selection cfg.fitness pop sp)

/-- The `while len(population) > 1` loop (src lines 157-177), with
fuel.  `orc iter island` is the randomness of the given island in the
given iteration. -/
def evolve (cfg : GAConfig) (sp : ℚ) (kp : ℕ) (orc : ℕ → ℕ → IslandRnd) :
    ℕ → ℕ → List ℕ → Option (List ℕ)
  | 0, _, _ => none
  | fuel + 1, iter, pop =>
    if pop.length ≤ 1 then some pop
    else if sp * (pop.length : ℚ) ≤ 1 then some (pyMaxKey cfg.fitness pop).toList
    else evolve cfg sp kp orc fuel (iter + 1) (stepPop cfg sp kp orc iter pop)

/-- `population[0]` at the end of a cycle (src line 179): IndexError on
an empty population. -/
def cycleWinner : List ℕ → Except PyErr ℕ
  | [] => .error .indexError
  | g :: _ => .ok g

/-- One cycle run from a given initial population: the evolving loop
followed by the winner extraction. -/
def cycleFromPop (cfg : GAConfig) (sp : ℚ) (kp : ℕ) (orc : ℕ → ℕ → IslandRnd)
    (fuel : ℕ) (pop : List ℕ) : Option (Except PyErr ℕ) :=
  (evolve cfg sp kp orc fuel 0 pop).map cycleWinner

/-- The cycle loop (src lines 153-179) over a list of cycle indices,
collecting the per-cycle winners in order. -/
def runCyclesAux (cfg : GAConfig) (sp : ℚ) (kp : ℕ) (initPop : ℕ → List ℕ)
    (orc : ℕ → ℕ → ℕ → IslandRnd) (fuel : ℕ) : List ℕ → Option (Except PyErr (List ℕ))
  | [] => some (.ok [])
  | i :: is =>
    match cycleFromPop cfg sp kp (orc i) fuel (initPop i) with
    | none => none
    | some (.error e) => some (.error e)
    | some (.ok g) =>
      (runCyclesAux cfg sp kp initPop orc fuel is).map (fun r => r.map (fun ws => g :: ws))

/-- The winners of all `cfg.cycle` cycles, in cycle order. -/
def runCycles (cfg : GAConfig) (sp : ℚ) (kp : ℕ) (initPop : ℕ → List ℕ)
    (orc : ℕ → ℕ → ℕ → IslandRnd) (fuel : ℕ) : Option (Except PyErr (List ℕ)) :=
  runCyclesAux cfg sp kp initPop orc fuel (List.range cfg.cycle)

/-- Embedding of `IslandGeneticAlgorithm.driver` (src lines 140-183):
run all cycles, then `max(winner_genomes, key=fitness)`; `max` of the
empty winners list raises ValueError. -/
def driver (cfg : GAConfig) (sp : ℚ) (kp : ℕ) (initPop : ℕ → List ℕ)
    (orc : ℕ → ℕ → ℕ → IslandRnd) (fuel : ℕ) : Option (Except PyErr ℕ) :=
  match runCycles cfg sp kp initPop orc fuel with
  | none => none
  | some (.error e) => some (.error e)
  | some (.ok ws) =>
    match pyMaxKey cfg.fitness ws with
    | none => some (.error .valueError)
    | some g => some (.ok g)

/-- Modelled from the spec: `GeneticAlgorithm.__init__` lives in
`standard_genetic_algorithm.py`, which is not among the given sources.
Per spec §9 it merges the caller's keyword arguments directly into the
engine's attribute set with no validation; `IslandGeneticAlgorithm.__init__`
(src lines 108-119) calls it and then updates `__dict__` again,
performing no checks and raising nothing.  Construction therefore
always succeeds with the configuration as given. -/
def igaInit (cfg : GAConfig) : Except PyErr GAConfig := .ok cfg

/-- Construction followed by the driver: the whole "search start". -/
def driverFromInit (cfg : GAConfig) (sp : ℚ) (kp : ℕ) (initPop : ℕ → List ℕ)
    (orc : ℕ → ℕ → ℕ → IslandRnd) (fuel : ℕ) : Option (Except PyErr ℕ) :=
  match igaInit cfg with
  | .error e => some (.error e)
  | .ok c => driver c sp kp initPop orc fuel

/-! ### Facts about `pyMaxKey` -/

theorem maxStep_mem (f : ℕ → Fitness) (x z : ℕ) :
    (if f x < f z then z else x) = x ∨ (if f x < f z then z else x) = z := by
  by_cases h : f x < f z <;> simp [h]

theorem maxStep_ge_left (f : ℕ → Fitness) (x z : ℕ) :
    f x ≤ f (if f x < f z then z else x) := by
  by_cases h : f x < f z
  · rw [if_pos h]; exact le_of_lt h
  · rw [if_neg h]

theorem maxStep_ge_right (f : ℕ → Fitness) (x z : ℕ) :
    f z ≤ f (if f x < f z then z else x) := by
  by_cases h : f x < f z
  · rw [if_pos h]
  · rw [if_neg h]; exact le_of_not_lt h

theorem foldl_best_mem (f : ℕ → Fitness) (xs : List ℕ) :
    ∀ x, xs.foldl (fun best y => if f best < f y then y else best) x ∈ x :: xs := by
  induction xs with
  | nil => intro x; simp
  | cons z zs ih =>
    intro x
    simp only [List.foldl_cons]
    rcases maxStep_mem f x z with hs | hs <;> rw [hs]
    · rcases List.mem_cons.mp (ih x) with h | h
      · simp [h]
      · simp [List.mem_cons, h]
    · rcases List.mem_cons.mp (ih z) with h | h
      · simp [h]
      · simp [List.mem_cons, h]

theorem foldl_best_ge (f : ℕ → Fitness) (xs : List ℕ) :
    ∀ x, f x ≤ f (xs.foldl (fun best y => if f best < f y then y else best) x) ∧
      ∀ y ∈ xs, f y ≤ f (xs.foldl (fun best y => if f best < f y then y else best) x) := by
  induction xs with
  | nil =>
    intro x
    exact ⟨le_rfl, by simp⟩
  | cons z zs ih =>
    intro x
    obtain ⟨h1, h2⟩ := ih (if f x < f z then z else x)
    simp only [List.foldl_cons]
    refine ⟨le_trans (maxStep_ge_left f x z) h1, ?_⟩
    intro y hy
    rcases List.mem_cons.mp hy with rfl | hy
    · exact le_trans (maxStep_ge_right f x y) h1
    · exact h2 y hy

theorem pyMaxKey_spec (f : ℕ → Fitness) (l : List ℕ) (m : ℕ)
    (h : pyMaxKey f l = some m) : m ∈ l ∧ ∀ y ∈ l, f y ≤ f m := by
  cases l with
  | nil => simp [pyMaxKey] at h
  | cons x xs =>
    simp only [pyMaxKey, Option.some.injEq] at h
    subst h
    refine ⟨foldl_best_mem f xs x, ?_⟩
    intro y hy
    obtain ⟨h1, h2⟩ := foldl_best_ge f xs x
    rcases List.mem_cons.mp hy with rfl | hy
    · exact h1
    · exact h2 y hy

theorem pyMaxKey_cons (f : ℕ → Fitness) (x : ℕ) (xs : List ℕ) :
    ∃ m, pyMaxKey f (x :: xs) = some m := ⟨_, rfl⟩

/-! ### Facts about `npUnique` -/

theorem mem_insertUnique (x a : ℕ) (l : List ℕ) :
    a ∈ insertUnique x l ↔ a = x ∨ a ∈ l := by
  induction l with
  | nil => simp [insertUnique]
  | cons y ys ih =>
    simp only [insertUnique]
    by_cases h1 : x < y
    · simp [h1, List.mem_cons]
    · by_cases h2 : x = y
      · subst h2; simp [h1, List.mem_cons]
      · simp [h1, h2, List.mem_cons, ih]
        tauto

theorem pairwise_insertUnique (x : ℕ) (l : List ℕ) (h : l.Pairwise (· < ·)) :
    (insertUnique x l).Pairwise (· < ·) := by
  induction l with
  | nil => simp [insertUnique]
  | cons y ys ih =>
    rw [List.pairwise_cons] at h
    obtain ⟨hy, hys⟩ := h
    simp only [insertUnique]
    by_cases h1 : x < y
    · rw [if_pos h1]
      refine List.Pairwise.cons ?_ (List.Pairwise.cons hy hys)
      intro a ha
      rcases List.mem_cons.mp ha with rfl | ha
      · exact h1
      · exact lt_trans h1 (hy a ha)
    · rw [if_neg h1]
      by_cases h2 : x = y
      · rw [if_pos h2]
        exact List.Pairwise.cons hy hys
      · rw [if_neg h2]
        refine List.Pairwise.cons ?_ (ih hys)
        intro a ha
        rcases (mem_insertUnique x a ys).mp ha with rfl | ha
        · exact lt_of_le_of_ne (not_lt.mp h1) (fun e => h2 e.symm)
        · exact hy a ha

theorem npUnique_cons (x : ℕ) (xs : List ℕ) :
    npUnique (x :: xs) = insertUnique x (npUnique xs) := rfl

theorem npUnique_pairwise (l : List ℕ) : (npUnique l).Pairwise (· < ·) := by
  induction l with
  | nil => simp [npUnique]
  | cons x xs ih =>
    rw [npUnique_cons]
    exact pairwise_insertUnique x _ ih

theorem mem_npUnique (a : ℕ) (l : List ℕ) : a ∈ npUnique l ↔ a ∈ l := by
  induction l with
  | nil => simp [npUnique]
  | cons x xs ih =>
    rw [npUnique_cons, mem_insertUnique]
    simp [List.mem_cons, ih]

theorem npUnique_nodup (l : List ℕ) : (npUnique l).Nodup :=
  (npUnique_pairwise l).imp ne_of_lt

/-! ### Unfolding equations of the evolving loop -/

theorem evolve_zero (cfg : GAConfig) (sp : ℚ) (kp : ℕ) (orc : ℕ → ℕ → IslandRnd)
    (iter : ℕ) (pop : List ℕ) : evolve cfg sp kp orc 0 iter pop = none := rfl

theorem evolve_succ (cfg : GAConfig) (sp : ℚ) (kp : ℕ) (orc : ℕ → ℕ → IslandRnd)
    (fuel iter : ℕ) (pop : List ℕ) :
    evolve cfg sp kp orc (fuel + 1) iter pop =
      if pop.length ≤ 1 then some pop
      else if sp * (pop.length : ℚ) ≤ 1 then some (pyMaxKey cfg.fitness pop).toList
      else evolve cfg sp kp orc fuel (iter + 1) (stepPop cfg sp kp orc iter pop) := rfl

/-! ### Claim theorems: codec and fitness -/

/-- A concrete problem instance used by the witnesses: 2 items with
weights [2, 3], values [3, 4], capacity 4. -/
def ksW : Knapsack := ⟨2, [2, 3], [3, 4], 4⟩

/-- Claim C1: for every genome integer in range and every problem
instance with matching item count and vector lengths, `fitness_func`
returns the value dot product of the decoded n-bit selection when the
weight dot product is at most the capacity, and the negative-infinity
sentinel otherwise. -/
theorem claim_c1 (ks : Knapsack) (code : ℕ)
    (hn : 1 ≤ ks.n) (hw : ks.weights.length = ks.n) (hv : ks.values.length = ks.n)
    (hcode : code ≤ 2 ^ ks.n - 1) :
    (get_genome_sequence code ks.n).length = ks.n ∧
    (npDot (get_genome_sequence code ks.n) ks.weights ≤ ks.capacity →
      fitness_func code ks = ((npDot (get_genome_sequence code ks.n) ks.values : ℤ) : Fitness)) ∧
    (¬ npDot (get_genome_sequence code ks.n) ks.weights ≤ ks.capacity →
      fitness_func code ks = ⊥) := by
  have h2n : 1 ≤ 2 ^ ks.n := Nat.one_le_two_pow
  refine ⟨get_genome_sequence_length code ks.n hn (by omega), ?_, ?_⟩
  · intro hfeas
    unfold fitness_func
    rw [if_pos hfeas]
  · intro hinf
    unfold fitness_func
    rw [if_neg hinf]

theorem claim_c1_witness : fitness_func 3 ksW = ⊥ :=
  (claim_c1 ksW 3 (by decide) rfl rfl (by decide)).2.2 (by decide)

/-- Claim C2: encoding the decoded fixed-width selection returns the
original integer, for every code in range and width at least 1. -/
theorem claim_c2 (code n : ℕ) (hn : 1 ≤ n) (hcode : code ≤ 2 ^ n - 1) :
    get_genome_value (get_genome_sequence code n) = code :=
  roundtrip code n

theorem claim_c2_witness : get_genome_value (get_genome_sequence 5 3) = 5 :=
  claim_c2 5 3 (by decide) (by decide)

/-- Claim C3 is false on the code: `np.binary_repr` does not truncate
when the requested width is smaller than the bit-length; the source's
own doctest shows `get_genome_sequence(7, 2)` is `[1, 1, 1]`, of length
3, not the 2 low-order bits. -/
theorem claim_c3_counterexample :
    get_genome_sequence 7 2 = [1, 1, 1] ∧ (get_genome_sequence 7 2).length ≠ 2 := by
  constructor
  · decide
  · decide

/-- Claim C3 (amended): for a width smaller than the number of bits
needed for `code`, decoding ignores the width and returns the full
natural MSB-first binary representation, whose length is the
bit-length of `code`, and raises no exception (the embedding is a
total function). -/
theorem claim_c3_amended (code w : ℕ) (h : w < (natBits code).length) :
    get_genome_sequence code w = natBits code ∧
    (get_genome_sequence code w).length = (natBits code).length := by
  have hz : w - (natBits code).length = 0 := by omega
  unfold get_genome_sequence
  rw [hz]
  simp

theorem claim_c3_amended_witness :
    get_genome_sequence 7 2 = natBits 7 ∧
    (get_genome_sequence 7 2).length = (natBits 7).length :=
  claim_c3_amended 7 2 (by decide)

/-- Claim C8: an infeasible genome (decoded weight above capacity) has
strictly smaller fitness than any feasible genome, on every instance. -/
theorem claim_c8 (ks : Knapsack) (A B : ℕ) (hn : 1 ≤ ks.n)
    (hw : ks.weights.length = ks.n) (hv : ks.values.length = ks.n)
    (hA : A ≤ 2 ^ ks.n - 1) (hB : B ≤ 2 ^ ks.n - 1)
    (hAinf : ks.capacity < npDot (get_genome_sequence A ks.n) ks.weights)
    (hBfeas : npDot (get_genome_sequence B ks.n) ks.weights ≤ ks.capacity) :
    fitness_func A ks < fitness_func B ks := by
  have hA2 : fitness_func A ks = ⊥ := by
    unfold fitness_func
    rw [if_neg (not_le.mpr hAinf)]
  have hB2 : fitness_func B ks =
      ((npDot (get_genome_sequence B ks.n) ks.values : ℤ) : Fitness) := by
    unfold fitness_func
    rw [if_pos hBfeas]
  rw [hA2, hB2]
  exact WithBot.bot_lt_coe _

theorem claim_c8_witness : fitness_func 3 ksW < fitness_func 1 ksW :=
  claim_c8 ksW 3 1 (by decide) rfl rfl (by decide) (by decide) (by decide) (by decide)

/-- Claim C10: on every instance with non-negative weights and
capacity, the empty selection (genome 0) is feasible with fitness 0,
never the negative-infinity sentinel. -/
theorem claim_c10 (ks : Knapsack) (hn : 1 ≤ ks.n)
    (hw : ks.weights.length = ks.n) (hv : ks.values.length = ks.n)
    (hwpos : ∀ w ∈ ks.weights, 0 ≤ w) (hcap : 0 ≤ ks.capacity) :
    fitness_func 0 ks = ((0 : ℤ) : Fitness) ∧ fitness_func 0 ks ≠ ⊥ := by
  have hseq := get_genome_sequence_zero ks.n hn
  have hW : npDot (get_genome_sequence 0 ks.n) ks.weights = 0 := by
    rw [hseq]; exact npDot_replicate_zero _ _
  have hV : npDot (get_genome_sequence 0 ks.n) ks.values = 0 := by
    rw [hseq]; exact npDot_replicate_zero _ _
  have h1 : fitness_func 0 ks = ((0 : ℤ) : Fitness) := by
    unfold fitness_func
    rw [hW, hV, if_pos hcap]
  exact ⟨h1, by rw [h1]; exact WithBot.coe_ne_bot⟩

theorem claim_c10_witness :
    fitness_func 0 ksW = ((0 : ℤ) : Fitness) ∧ fitness_func 0 ksW ≠ ⊥ :=
  claim_c10 ksW (by decide) rfl rfl (by decide) (by decide)

/-! ### Claim theorems: driver loop -/

/-- Claim C5: in an evolving iteration whose population has more than
one member and whose degenerate guard fires
(`selection_percentage * |P| ≤ 1`), the cycle ends at once with a
fittest member of P as the cycle winner, and the result is the same
for every island-randomness oracle, fuel and parallelism — i.e.
neither selection nor crossover nor mutation contributes; moreover a
population of a single genome makes that genome the cycle winner with
no crossover/mutation at all. -/
theorem claim_c5 (cfg : GAConfig) (sp : ℚ) (pop : List ℕ)
    (hlen : 1 < pop.length) (hguard : sp * (pop.length : ℚ) ≤ 1) :
    (∃ m, pyMaxKey cfg.fitness pop = some m ∧ m ∈ pop ∧
      (∀ g ∈ pop, cfg.fitness g ≤ cfg.fitness m) ∧
      (∀ kp orc fuel iter, evolve cfg sp kp orc (fuel + 1) iter pop = some [m]) ∧
      (∀ kp orc fuel, cycleFromPop cfg sp kp orc (fuel + 1) pop = some (.ok m))) ∧
    (∀ kp orc fuel g0, cycleFromPop cfg sp kp orc (fuel + 1) [g0] = some (.ok g0)) := by
  constructor
  · cases pop with
    | nil => simp at hlen
    | cons x xs =>
      obtain ⟨m, hm⟩ := pyMaxKey_cons cfg.fitness x xs
      obtain ⟨hmem, hge⟩ := pyMaxKey_spec cfg.fitness (x :: xs) m hm
      have hev : ∀ (kp : ℕ) (orc : ℕ → ℕ → IslandRnd) (fuel iter : ℕ),
          evolve cfg sp kp orc (fuel + 1) iter (x :: xs) = some [m] := by
        intro kp orc fuel iter
        rw [evolve_succ, if_neg (by omega), if_pos hguard, hm]
        rfl
      refine ⟨m, hm, hmem, hge, hev, ?_⟩
      intro kp orc fuel
      unfold cycleFromPop
      rw [hev kp orc fuel 0]
      rfl
  · intro kp orc fuel g0
    unfold cycleFromPop
    rw [evolve_succ, if_pos (by simp)]
    rfl

/-- The evolving-loop configuration used by the driver witnesses. -/
def cfgW : GAConfig := ⟨1, 2, fun g => fitness_func g ksW⟩

theorem claim_c5_witness :
    (∃ m, pyMaxKey cfgW.fitness [0, 1] = some m ∧ m ∈ ([0, 1] : List ℕ) ∧
      (∀ g ∈ ([0, 1] : List ℕ), cfgW.fitness g ≤ cfgW.fitness m) ∧
      (∀ kp orc fuel iter, evolve cfgW 0 kp orc (fuel + 1) iter [0, 1] = some [m]) ∧
      (∀ kp orc fuel, cycleFromPop cfgW 0 kp orc (fuel + 1) [0, 1] = some (.ok m))) ∧
    (∀ kp orc fuel g0, cycleFromPop cfgW 0 kp orc (fuel + 1) [g0] = some (.ok g0)) :=
  claim_c5 cfgW 0 [0, 1] (by decide) (by simp)

/-- Claim C6: the merge step of a generation — `np.unique` of the
concatenated `k_parallel` island outputs — produces a strictly
ascending population that contains exactly the genome values the
islands produced, each exactly once. -/
theorem claim_c6 (w kp : ℕ) (rnd : ℕ → IslandRnd) (pop : List ℕ) :
    (mergeIslands w kp rnd pop).Pairwise (· < ·) ∧
    (∀ x, x ∈ mergeIslands w kp rnd pop ↔
      x ∈ ((List.range kp).map (fun j => crossover_mutation w (rnd j) pop)).flatten) ∧
    (∀ x ∈ mergeIslands w kp rnd pop, (mergeIslands w kp rnd pop).count x = 1) := by
  refine ⟨npUnique_pairwise _, fun x => mem_npUnique x _, ?_⟩
  intro x hx
  exact List.count_eq_one_of_mem (npUnique_nodup _) hx

/-- Island randomness used by the C6 witness: one island producing the
offspring list [1, 2, 1] from the population [1, 2]. -/
def rndW : ℕ → IslandRnd := fun _ => ⟨[(0, 0, 0), (1, 1, 0), (0, 0, 0)], [0, 0, 0]⟩

theorem claim_c6_witness : (mergeIslands 2 1 rndW [1, 2]).count 1 = 1 :=
  (claim_c6 2 1 rndW [1, 2]).2.2 1 (by decide)

/-- Claim C7: when the driver returns a winner, that winner is one of
the recorded per-cycle winners and its fitness is at least the fitness
of every recorded per-cycle winner. -/
theorem claim_c7 (cfg : GAConfig) (sp : ℚ) (kp : ℕ) (initPop : ℕ → List ℕ)
    (orc : ℕ → ℕ → ℕ → IslandRnd) (fuel : ℕ) (ws : List ℕ) (g : ℕ)
    (hws : runCycles cfg sp kp initPop orc fuel = some (.ok ws))
    (hg : driver cfg sp kp initPop orc fuel = some (.ok g)) :
    g ∈ ws ∧ ∀ w ∈ ws, cfg.fitness w ≤ cfg.fitness g := by
  unfold driver at hg
  rw [hws] at hg
  dsimp only at hg
  cases hmax : pyMaxKey cfg.fitness ws with
  | none => rw [hmax] at hg; simp at hg
  | some m =>
    rw [hmax] at hg
    simp only [Option.some.injEq, Except.ok.injEq] at hg
    subst hg
    exact pyMaxKey_spec cfg.fitness ws m hmax

/-- Initial populations and island randomness used by the driver
witnesses: every cycle starts from the singleton population [1] and
the islands consume no random draws. -/
def initPopW : ℕ → List ℕ := fun _ => [1]

def orcW : ℕ → ℕ → ℕ → IslandRnd := fun _ _ _ => ⟨[], []⟩

theorem claim_c7_witness :
    (1 : ℕ) ∈ ([1] : List ℕ) ∧ ∀ w ∈ ([1] : List ℕ), cfgW.fitness w ≤ cfgW.fitness 1 :=
  claim_c7 cfgW 0 1 initPopW orcW 1 [1] 1 rfl rfl

/-! ### Claim C4: configuration validation -/

/-- Initial populations for the C4 counterexample run. -/
def initPopC4 : ℕ → List ℕ := fun _ => [0, 1]

/-- Claim C4 counterexample: the selection fraction 0 lies outside
(0, 1], yet construction succeeds and the driver runs a full cycle
(the degenerate guard collapses the population) and returns a winner;
no error is surfaced at search start — or at all. -/
theorem claim_c4_counterexample :
    ¬ (0 < (0 : ℚ)) ∧
    driverFromInit cfgW 0 1 initPopC4 orcW 2 = some (.ok 1) := by
  refine ⟨lt_irrefl 0, ?_⟩
  have hev : evolve cfgW 0 1 (orcW 0) 2 0 [0, 1] = some [1] := by
    rw [evolve_succ, if_neg (by decide), if_pos (by simp)]
    rfl
  have hcycle : cycleFromPop cfgW 0 1 (orcW 0) 2 [0, 1] = some (.ok 1) := by
    unfold cycleFromPop
    rw [hev]
    rfl
  have hrun : runCycles cfgW 0 1 initPopC4 orcW 2 = some (.ok [1]) := by
    unfold runCycles
    show runCyclesAux cfgW 0 1 initPopC4 orcW 2 [0] = some (.ok [1])
    simp only [runCyclesAux, initPopC4, hcycle]
    rfl
  unfold driverFromInit igaInit driver
  dsimp only
  rw [hrun]
  rfl

/-- Claim C4 (amended): the implementation performs no configuration
validation: construction always returns the configuration unchanged,
and an invalid cycle count of 0 is not rejected at construction or at
driver start — the driver runs its (empty) cycle loop and only the
final `max` over the empty winners list raises a ValueError, at
finalization rather than at search start.  Likewise the counterexample
run shows a selection fraction outside (0, 1] surfacing no error at
all. -/
theorem claim_c4_amended (gs : ℕ) (fit : ℕ → Fitness) (cfg : GAConfig) (sp : ℚ) (kp : ℕ)
    (initPop : ℕ → List ℕ) (orc : ℕ → ℕ → ℕ → IslandRnd) (fuel : ℕ) :
    igaInit cfg = .ok cfg ∧
    driverFromInit ⟨0, gs, fit⟩ sp kp initPop orc fuel = some (.error .valueError) :=
  ⟨rfl, rfl⟩

/-! ### Claim C9: loop termination -/

/-- The problem instance of the C9 counterexample: one item of weight
1 and value 1, capacity 1. -/
def ksC9 : Knapsack := ⟨1, [1], [1], 1⟩

/-- A fully valid configuration for the C9 counterexample: 1 cycle,
genome width 1 matching the instance, knapsack fitness. -/
def cfgC9 : GAConfig := ⟨1, 1, fun g => fitness_func g ksC9⟩

/-- Island randomness that reproduces the two survivors exactly:
each offspring crosses a survivor with itself and every mutation mask
is zero — an outcome the spec's uniform crossover and bit-flip
mutation can produce. -/
def rC9 : IslandRnd := ⟨[(0, 0, 0), (1, 1, 0)], [0, 0]⟩

def orcC9 : ℕ → ℕ → IslandRnd := fun _ _ => rC9

theorem c9_selection : selection cfgC9.fitness [0, 1] 1 = [1, 0] := by
  unfold selection
  have hc : max 1 ⌈(1 : ℚ) * ((([0, 1] : List ℕ).length : ℕ) : ℚ)⌉₊ = 2 := by norm_num
  rw [hc]
  rfl

theorem c9_step (iter : ℕ) : stepPop cfgC9 1 1 orcC9 iter [0, 1] = [0, 1] := by
  unfold stepPop
  rw [c9_selection]
  show mergeIslands cfgC9.genome_size 1 (fun _ => rC9) [1, 0] = [0, 1]
  decide

theorem c9_loop_stuck : ∀ fuel iter, evolve cfgC9 1 1 orcC9 fuel iter [0, 1] = none := by
  intro fuel
  induction fuel with
  | zero => intro iter; rfl
  | succ f ih =>
    intro iter
    rw [evolve_succ, if_neg (by decide), if_neg (by norm_num), c9_step iter]
    exact ih (iter + 1)

/-- Claim C9 counterexample: a fully valid configuration (selection
fraction 1 in (0, 1], parallelism 1, cycle count 1, genome width
matching the instance) and a realizable randomness trace under which
the evolving loop started from the population [0, 1] never reaches a
population of size at most 1 and never triggers the degenerate guard:
no amount of fuel makes the loop finish. -/
theorem claim_c9_counterexample :
    ((0 : ℚ) < 1 ∧ (1 : ℚ) ≤ 1 ∧ 1 ≤ (1 : ℕ) ∧ cfgC9.genome_size = ksC9.n ∧
      1 ≤ cfgC9.cycle) ∧
    ¬ ∃ fuel, (evolve cfgC9 1 1 orcC9 fuel 0 [0, 1]).isSome := by
  refine ⟨⟨by norm_num, le_refl 1, le_refl 1, rfl, le_refl 1⟩, ?_⟩
  rintro ⟨fuel, hf⟩
  rw [c9_loop_stuck fuel 0] at hf
  simp at hf

/-- Claim C9 (amended): the evolving loop does terminate whenever each
non-guard generation strictly shrinks the population (the property the
spec asserts of the loop); in general, as the counterexample shows,
the merged island outputs can keep the population size constant
forever, so termination holds only under this strict-decrease
assumption on the crossover/mutation outcomes. -/
theorem claim_c9_amended (cfg : GAConfig) (sp : ℚ) (kp : ℕ) (orc : ℕ → ℕ → IslandRnd)
    (hdec : ∀ iter p, 1 < p.length → ¬ (sp * (p.length : ℚ) ≤ 1) →
      (stepPop cfg sp kp orc iter p).length < p.length) :
    ∀ pop iter, ∃ fuel, (evolve cfg sp kp orc fuel iter pop).isSome := by
  suffices h : ∀ N pop iter, pop.length ≤ N →
      ∃ fuel, (evolve cfg sp kp orc fuel iter pop).isSome by
    intro pop iter
    exact h pop.length pop iter le_rfl
  intro N
  induction N with
  | zero =>
    intro pop iter hlen
    exact ⟨1, by rw [evolve_succ, if_pos (by omega)]; rfl⟩
  | succ N ih =>
    intro pop iter hlen
    by_cases h1 : pop.length ≤ 1
    · exact ⟨1, by rw [evolve_succ, if_pos h1]; rfl⟩
    · by_cases h2 : sp * (pop.length : ℚ) ≤ 1
      · exact ⟨1, by rw [evolve_succ, if_neg h1, if_pos h2]; rfl⟩
      · have hlt := hdec iter pop (by omega) h2
        obtain ⟨fuel, hf⟩ := ih (stepPop cfg sp kp orc iter pop) (iter + 1) (by omega)
        exact ⟨fuel + 1, by rw [evolve_succ, if_neg h1, if_neg h2]; exact hf⟩

/-- Islands that consume no random draws produce no offspring, so the
step always shrinks the population: used to discharge the hypothesis
of the amended C9 theorem. -/
def orcE : ℕ → ℕ → IslandRnd := fun _ _ => ⟨[], []⟩

theorem claim_c9_amended_witness :
    ∃ fuel, (evolve cfgW 1 1 orcE fuel 0 [0, 1, 2]).isSome :=
  claim_c9_amended cfgW 1 1 orcE
    (by
      intro iter p h1 h2
      have hs : stepPop cfgW 1 1 orcE iter p = [] := rfl
      rw [hs]
      simpa using by omega)
    [0, 1, 2] 0

end IslandGA
